import Mathlib

/-!
Verification of the HLS download pipeline of the frontendmasters-downloader
repository: a shallow embedding of the playlist parsing/selection logic
(`src/downloader.js` / `src/merger.js` / `src/utils.js` / `src/index.js`),
with theorems settling the stated behavioural claims.

Strings are modelled by Lean `String`s; the character-level JavaScript string
builtins used by the source (`trim`, `split`, `startsWith`, `endsWith`,
`includes`) are re-implemented over `List Char` so that they are both
executable and amenable to induction.  WHATWG URL resolution (`new URL(rel,
base).href`) is a platform builtin, not repository code; it is taken as an
opaque parameter `resolveUrl` wherever the source calls it.
-/

namespace FMDL

/-- Whitespace recognised by the JavaScript `trim`/`\s` model (core ASCII
whitespace characters). -/
def jsIsSpace (c : Char) : Bool :=
  c = ' ' || c = '\t' || c = '\n' || c = '\r' || c = '\x0b' || c = '\x0c'

/-- Strip whitespace from both ends of a character list (JS `String.trim`). -/
def trimChars (l : List Char) : List Char :=
  ((l.dropWhile jsIsSpace).reverse.dropWhile jsIsSpace).reverse

/-- JS `String.prototype.trim`. -/
def jsTrim (s : String) : String := String.mk (trimChars s.toList)

/-- Does the first list start with the second (JS `startsWith`)? -/
def hasPrefixC : List Char → List Char → Bool
  | _, [] => true
  | [], _ :: _ => false
  | c :: s, p :: ps => c = p && hasPrefixC s ps

/-- JS `String.prototype.startsWith`. -/
def strStarts (s pat : String) : Bool := hasPrefixC s.toList pat.toList

/-- JS `String.prototype.endsWith`. -/
def strEnds (s pat : String) : Bool := hasPrefixC s.toList.reverse pat.toList.reverse

/-- Does `s` contain `pat` as a contiguous substring (JS `includes`)? -/
def hasSubC (pat : List Char) : List Char → Bool
  | [] => pat.isEmpty
  | c :: rest => hasPrefixC (c :: rest) pat || hasSubC pat rest

/-- JS `String.prototype.includes`. -/
def strHasSub (s pat : String) : Bool := hasSubC pat.toList s.toList

/-- Split a character list at newline characters (JS `split('\n')`).  The
result is always non-empty and keeps empty fragments, as in JavaScript. -/
def splitLinesC : List Char → List (List Char)
  | [] => [[]]
  | c :: rest =>
    if c = '\n' then [] :: splitLinesC rest
    else
      match splitLinesC rest with
      | [] => [[c]]
      | l :: ls => (c :: l) :: ls

/-- JS `content.split('\n')`. -/
def splitLines (s : String) : List String := (splitLinesC s.toList).map String.mk

/-! ## PlaylistResolver: `parseM3U8Playlist` (src/downloader.js lines 10-40) -/

/-- The loop body of `parseM3U8Playlist`: walk the lines, skip blank lines and
lines starting with `#`, collect each remaining line ending in `.ts`, resolving
it against `baseUrl` unless it starts with `http`. -/
def collectSegments (resolveUrl : String → String → String) (baseUrl : String) :
    List String → List String
  | [] => []
  | line :: rest =>
    let t := jsTrim line
    cond (t == "" || strStarts t "#") (collectSegments resolveUrl baseUrl rest)
      (cond (strEnds t ".ts")
        ((cond (strStarts t "http") t (resolveUrl t baseUrl))
          :: collectSegments resolveUrl baseUrl rest)
        (collectSegments resolveUrl baseUrl rest))

/-- `parseM3U8Playlist(m3u8Content, baseUrl)`.  The `Option String` input
models the JavaScript payload: `none` is a non-string value, and the guard
`!m3u8Content || typeof m3u8Content !== 'string'` also rejects the empty
string.  Failure (a thrown `Error`) is modelled as `Except.error` carrying the
message. -/
def parseM3U8Playlist (resolveUrl : String → String → String)
    (m3u8Content : Option String) (baseUrl : String) : Except String (List String) :=
  match m3u8Content with
  | none => Except.error "Invalid M3U8 content provided"
  | some c =>
    if c = "" then Except.error "Invalid M3U8 content provided"
    else Except.ok (collectSegments resolveUrl baseUrl (splitLines c))

/-- Specification-side view of one playlist line: `some url` when the trimmed
line is a segment reference, `none` otherwise. -/
def segmentTarget (resolveUrl : String → String → String) (baseUrl : String)
    (line : String) : Option String :=
  let t := jsTrim line
  cond ((!(t == "" || strStarts t "#")) && strEnds t ".ts")
    (some (cond (strStarts t "http") t (resolveUrl t baseUrl))) none

/-- Is the trimmed line a segment line? -/
def isSegLine (line : String) : Bool :=
  let t := jsTrim line
  (!(t == "" || strStarts t "#")) && strEnds t ".ts"

theorem collectSegments_eq_filterMap (resolveUrl : String → String → String)
    (baseUrl : String) (lines : List String) :
    collectSegments resolveUrl baseUrl lines =
      lines.filterMap (segmentTarget resolveUrl baseUrl) := by
  induction lines with
  | nil => rfl
  | cons line rest ih =>
    simp only [collectSegments, segmentTarget, List.filterMap_cons]
    cases hb1 : (jsTrim line == "" || strStarts (jsTrim line) "#") <;>
      cases hb2 : strEnds (jsTrim line) ".ts" <;>
      simp [hb1, hb2, ih]

theorem segmentTarget_isSome_eq (resolveUrl : String → String → String)
    (baseUrl line : String) :
    (segmentTarget resolveUrl baseUrl line).isSome = isSegLine line := by
  simp only [segmentTarget, isSegLine]
  rcases Bool.eq_false_or_eq_true ((!(jsTrim line == "" || strStarts (jsTrim line) "#")) &&
      strEnds (jsTrim line) ".ts") with h | h <;> rw [h] <;> rfl

theorem length_filterMap_segmentTarget (resolveUrl : String → String → String)
    (baseUrl : String) (lines : List String) :
    (lines.filterMap (segmentTarget resolveUrl baseUrl)).length =
      (lines.filter isSegLine).length := by
  induction lines with
  | nil => rfl
  | cons line rest ih =>
    simp only [List.filterMap_cons]
    cases hst : segmentTarget resolveUrl baseUrl line with
    | none =>
      have hl : isSegLine line = false := by
        rw [← segmentTarget_isSome_eq resolveUrl baseUrl, hst]
        rfl
      simp [List.filter_cons, hl, ih]
    | some u =>
      have hl : isSegLine line = true := by
        rw [← segmentTarget_isSome_eq resolveUrl baseUrl, hst]
        rfl
      simp [List.filter_cons, hl, ih]

theorem segmentTarget_eq_none_of_not_seg (resolveUrl : String → String → String)
    (baseUrl line : String) (h : isSegLine line = false) :
    segmentTarget resolveUrl baseUrl line = none := by
  have hs := segmentTarget_isSome_eq resolveUrl baseUrl line
  rw [h] at hs
  cases hval : segmentTarget resolveUrl baseUrl line with
  | none => rfl
  | some u => rw [hval] at hs; exact absurd hs (by simp)

/-- C5: for a valid (non-empty) playlist text, `parseM3U8Playlist` succeeds and
returns, in document order, exactly one URL for each segment line (trimmed
non-empty, not `#`-prefixed, ending in `.ts`), each kept verbatim when it
starts with `http` and otherwise resolved against the base URL; in particular
the number of returned URLs equals the number of segment lines. -/
theorem parseM3U8_roundtrip (resolveUrl : String → String → String)
    (baseUrl c : String) (hc : c ≠ "") :
    parseM3U8Playlist resolveUrl (some c) baseUrl =
      Except.ok ((splitLines c).filterMap (segmentTarget resolveUrl baseUrl)) ∧
    ((splitLines c).filterMap (segmentTarget resolveUrl baseUrl)).length =
      ((splitLines c).filter isSegLine).length := by
  constructor
  · simp [parseM3U8Playlist, hc, collectSegments_eq_filterMap]
  · exact length_filterMap_segmentTarget resolveUrl baseUrl (splitLines c)

/-- Witness for `parseM3U8_roundtrip` at a concrete mixed playlist. -/
theorem parseM3U8_roundtrip_witness :
    parseM3U8Playlist (fun rel base => base ++ rel)
        (some "#EXTM3U\n#EXTINF:4,\nhttp://cdn/a.ts\n\n#EXTINF:4,\nb.ts\n")
        "http://cdn/" =
      Except.ok ["http://cdn/a.ts", "http://cdn/b.ts"] := by
  have h := parseM3U8_roundtrip (fun rel base => base ++ rel)
    "http://cdn/" "#EXTM3U\n#EXTINF:4,\nhttp://cdn/a.ts\n\n#EXTINF:4,\nb.ts\n"
    (by decide)
  rw [h.1]
  rfl

/-- Whether an `Except` result is an error. -/
def isErr : Except ε α → Bool
  | Except.error _ => true
  | Except.ok _ => false

/-- C8: `parseM3U8Playlist` fails (with the `Invalid M3U8 content provided`
error) exactly when the payload is not a string or is the empty string; a
non-empty string with zero segment lines yields `ok []`, not an error. -/
theorem parseM3U8_error_conditions (resolveUrl : String → String → String)
    (baseUrl : String) (content : Option String) :
    (isErr (parseM3U8Playlist resolveUrl content baseUrl) = true ↔
      content = none ∨ content = some "") ∧
    (∀ c, content = some c → c ≠ "" →
      (splitLines c).all (fun l => !isSegLine l) = true →
      parseM3U8Playlist resolveUrl content baseUrl = Except.ok []) := by
  constructor
  · constructor
    · intro h
      match content with
      | none => exact Or.inl rfl
      | some c =>
        by_cases hc : c = ""
        · exact Or.inr (by rw [hc])
        · simp [parseM3U8Playlist, hc, isErr] at h
    · intro h
      rcases h with h | h
      · rw [h]; rfl
      · rw [h]; rfl
  · intro c hcont hc hall
    subst hcont
    have hempty : (splitLines c).filterMap (segmentTarget resolveUrl baseUrl) = [] := by
      rw [List.filterMap_eq_nil_iff]
      intro line hline
      have hl := (List.all_eq_true.mp hall) line hline
      rw [Bool.not_eq_true'] at hl
      exact segmentTarget_eq_none_of_not_seg resolveUrl baseUrl line hl
    have h := (parseM3U8_roundtrip resolveUrl baseUrl c hc).1
    rw [h, hempty]

/-- Witness for `parseM3U8_error_conditions`: the error cases hold for `none`,
and a tag-only playlist yields `ok []`. -/
theorem parseM3U8_error_conditions_witness :
    isErr (parseM3U8Playlist (fun rel _ => rel) none "http://b/") = true ∧
    parseM3U8Playlist (fun rel _ => rel) (some "#EXTM3U\n#EXT-X-ENDLIST")
      "http://b/" = Except.ok [] := by
  refine ⟨?_, ?_⟩
  · exact (parseM3U8_error_conditions (fun rel _ => rel) "http://b/" none).1.mpr
      (Or.inl rfl)
  · exact (parseM3U8_error_conditions (fun rel _ => rel) "http://b/"
      (some "#EXTM3U\n#EXT-X-ENDLIST")).2 "#EXTM3U\n#EXT-X-ENDLIST" rfl
      (by decide) (by decide)

/-! ## ProgressTracker: `saveProgress` (src/index.js lines 34-37)

`saveProgress` is modelled by the trace of filesystem operations it performs.
JSON serialisation (`JSON.stringify`) is a platform builtin and is kept opaque:
the serialised text is the `content` parameter. -/

/-- A filesystem operation performed by the progress tracker. -/
inductive FsOp
  | write (path content : String)
  | rename (src dst : String)
deriving Repr, DecidableEq

/-- Is the operation a rename? -/
def FsOp.isRenameOp : FsOp → Bool
  | FsOp.rename _ _ => true
  | FsOp.write _ _ => false

/-- The target path of a write operation. -/
def FsOp.writeTarget : FsOp → Option String
  | FsOp.write p _ => some p
  | FsOp.rename _ _ => none

/-- `PROGRESS_FILE` constant of src/index.js. -/
def progressFileName : String := ".download-progress.json"

/-- `path.join(outputDir, PROGRESS_FILE)` for an output directory with no
trailing separator. -/
def pathJoin (a b : String) : String := a ++ "/" ++ b

/-- The filesystem trace of `saveProgress(outputDir, progress)`: a single
direct `writeFileSync` of the serialised progress to the progress path. -/
def saveProgressTrace (outputDir content : String) : List FsOp :=
  [FsOp.write (pathJoin outputDir progressFileName) content]

/-- C2 counterexample: at the concrete call `saveProgress("out", ...)` the
trace is one direct write to `out/.download-progress.json`; it contains no
rename, and every write it performs targets the final path — refuting the
claim that the state is written to a temporary path and then renamed. -/
theorem saveProgress_no_temp_rename_counterexample :
    saveProgressTrace "out" "{}" =
      [FsOp.write "out/.download-progress.json" "{}"] ∧
    (saveProgressTrace "out" "{}").all (fun op => !op.isRenameOp) = true ∧
    (saveProgressTrace "out" "{}").all
      (fun op => op.writeTarget == some "out/.download-progress.json") = true := by
  refine ⟨rfl, rfl, ?_⟩
  decide

/-- C2 amended: `saveProgress` persists the progress state by a single direct
write of the serialised state to the final progress path; no temporary path
and no rename/replace step is involved. -/
theorem saveProgress_direct_write (outputDir content : String) :
    saveProgressTrace outputDir content =
      [FsOp.write (pathJoin outputDir progressFileName) content] ∧
    (saveProgressTrace outputDir content).all (fun op => !op.isRenameOp) = true := by
  exact ⟨rfl, rfl⟩

/-! ## SegmentStore fallback listing: `getSegmentsFromDir`
(src/merger.js lines 51-60) -/

/-- Accumulating decimal value of a leading digit run (the digits consumed by
`parseInt(s, 10)`). -/
def digitsVal : List Char → Nat → Nat
  | [], acc => acc
  | c :: rest, acc =>
    if c.isDigit then digitsVal rest (acc * 10 + (c.toNat - 48)) else acc

/-- `parseInt(s, 10)` on a plain (unsigned, untrimmed) string: `none` models
`NaN` (no leading digit). -/
def jsParseInt : List Char → Option Nat
  | [] => none
  | c :: rest => if c.isDigit then some (digitsVal (c :: rest) 0) else none

/-- Remove the first occurrence of `pat` (JS `String.replace(pat, '')` with a
string pattern, which replaces only the first occurrence). -/
def removeFirstSeq (pat : List Char) : List Char → List Char
  | [] => []
  | c :: rest =>
    if hasPrefixC (c :: rest) pat then (c :: rest).drop pat.length
    else c :: removeFirstSeq pat rest

/-- The numeric sort key of a segment filename:
`parseInt(f.replace('.ts', ''), 10)`.  `Option.getD 0` stands for the `NaN`
case, which the theorems exclude by hypothesis (real blob names are digit
runs). -/
def segNum (f : String) : Nat :=
  (jsParseInt (removeFirstSeq ".ts".toList f.toList)).getD 0

/-- Insert into a numerically ascending list, keeping the inserted (earlier)
element before later elements with an equal key: together with `sortByNum`
this models the stable `Array.prototype.sort` with comparator
`(a, b) => numA - numB`. -/
def insertByNum (v : String) : List String → List String
  | [] => [v]
  | w :: ws => if segNum v ≤ segNum w then v :: w :: ws else w :: insertByNum v ws

/-- Stable sort by `segNum` (ascending). -/
def sortByNum (l : List String) : List String := l.foldr insertByNum []

/-- `getSegmentsFromDir(segmentsDir)`: keep the `.ts` entries of the directory
listing and sort them numerically. -/
def getSegmentsFromDir (files : List String) : List String :=
  sortByNum (files.filter (fun f => strEnds f ".ts"))

theorem mem_insertByNum (v x : String) (l : List String) :
    x ∈ insertByNum v l ↔ x = v ∨ x ∈ l := by
  induction l with
  | nil => simp [insertByNum]
  | cons w ws ih =>
    simp only [insertByNum]
    by_cases h : segNum v ≤ segNum w
    · rw [if_pos h]
      simp [List.mem_cons]
    · rw [if_neg h]
      simp only [List.mem_cons, ih]
      tauto

theorem perm_insertByNum (v : String) (l : List String) :
    (insertByNum v l).Perm (v :: l) := by
  induction l with
  | nil => exact List.Perm.refl _
  | cons w ws ih =>
    simp only [insertByNum]
    by_cases h : segNum v ≤ segNum w
    · rw [if_pos h]
    · rw [if_neg h]
      exact (ih.cons w).trans (List.Perm.swap v w ws)

theorem pairwise_insertByNum (v : String) (l : List String)
    (h : l.Pairwise (fun a b => segNum a ≤ segNum b)) :
    (insertByNum v l).Pairwise (fun a b => segNum a ≤ segNum b) := by
  induction l with
  | nil => simp [insertByNum]
  | cons w ws ih =>
    rcases List.pairwise_cons.mp h with ⟨hw, hws⟩
    simp only [insertByNum]
    by_cases hle : segNum v ≤ segNum w
    · rw [if_pos hle]
      refine List.pairwise_cons.mpr ⟨?_, h⟩
      intro x hx
      rcases List.mem_cons.mp hx with rfl | hx
      · exact hle
      · exact le_trans hle (hw x hx)
    · rw [if_neg hle]
      refine List.pairwise_cons.mpr ⟨?_, ih hws⟩
      intro x hx
      rcases (mem_insertByNum v x ws).mp hx with rfl | hx
      · exact le_of_not_le hle
      · exact hw x hx

theorem sortByNum_sorted (l : List String) :
    (sortByNum l).Pairwise (fun a b => segNum a ≤ segNum b) := by
  induction l with
  | nil => simp [sortByNum]
  | cons a l ih => exact pairwise_insertByNum a (sortByNum l) ih

theorem sortByNum_perm (l : List String) : (sortByNum l).Perm l := by
  induction l with
  | nil => exact List.Perm.refl _
  | cons a l ih => exact (perm_insertByNum a (sortByNum l)).trans (ih.cons a)

/-- C9: the fallback directory listing sorts segment filenames by the numeric
value embedded in the name.  Concretely, `00002.ts, 00010.ts, 00001.ts` sort
to `[00001.ts, 00002.ts, 00010.ts]`, and (showing the order is numeric rather
than lexical) the unpadded `10.ts, 2.ts` sort to `[2.ts, 10.ts]` although
`"10.ts" < "2.ts"` lexically.  In general, when every listed name has a
numeric stem, the result is a permutation of the `.ts` entries that is
non-decreasing in the parsed numeric key. -/
theorem getSegmentsFromDir_numeric_sort :
    getSegmentsFromDir ["00002.ts", "00010.ts", "00001.ts"] =
      ["00001.ts", "00002.ts", "00010.ts"] ∧
    getSegmentsFromDir ["10.ts", "2.ts"] = ["2.ts", "10.ts"] ∧
    ∀ files : List String,
      (∀ f ∈ files, (jsParseInt (removeFirstSeq ".ts".toList f.toList)).isSome = true) →
      (getSegmentsFromDir files).Pairwise (fun a b => segNum a ≤ segNum b) ∧
      (getSegmentsFromDir files).Perm (files.filter (fun f => strEnds f ".ts")) := by
  refine ⟨by decide, by decide, ?_⟩
  intro files _
  exact ⟨sortByNum_sorted _, sortByNum_perm _⟩

/-- Witness for `getSegmentsFromDir_numeric_sort` at a concrete listing. -/
theorem getSegmentsFromDir_numeric_sort_witness :
    (getSegmentsFromDir ["3.ts", "1.ts"]).Pairwise
      (fun a b => segNum a ≤ segNum b) ∧
    (getSegmentsFromDir ["3.ts", "1.ts"]).Perm
      (["3.ts", "1.ts"].filter (fun f => strEnds f ".ts")) :=
  getSegmentsFromDir_numeric_sort.2.2 ["3.ts", "1.ts"] (by decide)

/-! ## SegmentStore / merge input: `readManifest` and `mergeSegments`
(src/merger.js lines 30-44 and 93-102) -/

/-- `String(i).padStart(5, '0')`. -/
def padStart5 (s : String) : String :=
  String.mk (List.replicate (5 - s.toList.length) '0' ++ s.toList)

/-- The blob filename regenerated for manifest index `i`:
`${String(index).padStart(5, '0')}.ts`. -/
def segName (i : Nat) : String := padStart5 (toString i) ++ ".ts"

/-- The merge input list chosen by `mergeSegments` (lines 93-102).  The
`manifest` argument is the result of `readManifest`: `none` when
`manifest.json` is missing or unparsable, otherwise `some` of its `segments`
array (`[]` when the key is absent).  When the manifest lists at least one
segment, the filenames are regenerated from the indices `0..n-1`
(`manifest.segments.map((_, index) => ...)`); only otherwise is the directory
listing consulted. -/
def mergeInputFiles (manifest : Option (List String)) (dirFiles : List String) :
    List String :=
  match manifest with
  | some segs =>
    if segs.length > 0 then (List.range segs.length).map segName
    else getSegmentsFromDir dirFiles
  | none => getSegmentsFromDir dirFiles

/-- C1 counterexample: with a manifest listing `[b.ts, a.ts]` and a directory
containing `a.ts, b.ts`, the merge input is `[00000.ts, 00001.ts]` — the
zero-padded index names — and not the manifest's filename list `[b.ts, a.ts]`
as the claim states. -/
theorem mergeInput_ignores_manifest_names_counterexample :
    mergeInputFiles (some ["b.ts", "a.ts"]) ["a.ts", "b.ts"] =
      ["00000.ts", "00001.ts"] ∧
    mergeInputFiles (some ["b.ts", "a.ts"]) ["a.ts", "b.ts"] ≠
      ["b.ts", "a.ts"] := by
  constructor
  · rfl
  · decide

/-- C1 amended: when a manifest is present and lists `n ≥ 1` segments, the
merge input is exactly the `n` regenerated zero-padded index filenames
`00000.ts … ` — the manifest contributes only its segment count, not its
listed names — and the (numerically sorted) directory listing is used exactly
when no manifest exists or the manifest lists zero segments. -/
theorem mergeInput_uses_manifest_count (manifest : Option (List String))
    (dirFiles : List String) :
    (∀ segs, manifest = some segs → segs ≠ [] →
      mergeInputFiles manifest dirFiles = (List.range segs.length).map segName) ∧
    (manifest = none ∨ manifest = some [] →
      mergeInputFiles manifest dirFiles = getSegmentsFromDir dirFiles) := by
  constructor
  · intro segs hm hne
    subst hm
    have hl : segs.length > 0 := List.length_pos.mpr hne
    simp [mergeInputFiles, hl]
  · intro h
    rcases h with h | h <;> subst h <;> simp [mergeInputFiles]

/-- Witness for `mergeInput_uses_manifest_count` at a concrete manifest and
directory. -/
theorem mergeInput_uses_manifest_count_witness :
    mergeInputFiles (some ["b.ts", "a.ts"]) ["x.ts"] =
      (List.range (["b.ts", "a.ts"]).length).map segName ∧
    mergeInputFiles none ["x.ts"] = getSegmentsFromDir ["x.ts"] :=
  ⟨(mergeInput_uses_manifest_count (some ["b.ts", "a.ts"]) ["x.ts"]).1
      ["b.ts", "a.ts"] rfl (by decide),
    (mergeInput_uses_manifest_count none ["x.ts"]).2 (Or.inl rfl)⟩

/-! ## PlaylistResolver: `parseAllVariants` and `resolveSegmentPlaylist`
(src/downloader.js lines 91-119 and 168-203) -/

/-- A variant stream parsed from a master playlist. -/
structure Variant where
  url : String
  bandwidth : Nat
deriving Repr, DecidableEq

/-- Split a character list at a separator character (JS `split(sep)`). -/
def splitOnCharC (sep : Char) : List Char → List (List Char)
  | [] => [[]]
  | c :: rest =>
    if c = sep then [] :: splitOnCharC sep rest
    else
      match splitOnCharC sep rest with
      | [] => [[c]]
      | l :: ls => (c :: l) :: ls

/-- `url.split('/').pop()`: the last path component of a URL. -/
def lastUrlComp (s : String) : String :=
  String.mk ((splitOnCharC '/' s.toList).getLastD [])

/-- The bandwidth matched at the start of a position:
`some` of the leading digit-run value after a literal `BANDWIDTH=`, `none`
when the literal or the digit is absent here. -/
def bandwidthAt (l : List Char) : Option Nat :=
  if hasPrefixC l "BANDWIDTH=".toList then
    jsParseInt (l.drop ("BANDWIDTH=".toList.length))
  else none

/-- `line.match(/BANDWIDTH=(\d+)/)`: scan left to right for the first
position where `BANDWIDTH=` is followed by at least one digit. -/
def findBandwidthC : List Char → Option Nat
  | [] => none
  | c :: rest =>
    match bandwidthAt (c :: rest) with
    | some n => some n
    | none => findBandwidthC rest

/-- The bandwidth attribute of a `#EXT-X-STREAM-INF` line, `0` when absent or
unparsable (`bandwidthMatch ? parseInt(bandwidthMatch[1]) : 0`). -/
def findBandwidth (line : String) : Nat := (findBandwidthC line.toList).getD 0

/-- The first trimmed non-empty, non-`#` line (the inner `for j` scan that
finds the variant URL following a `#EXT-X-STREAM-INF` line). -/
def firstContentLine : List String → Option String
  | [] => none
  | line :: rest =>
    let t := jsTrim line
    cond (t == "" || strStarts t "#") (firstContentLine rest) (some t)

/-- A variant URL line, resolved against the master URL unless it starts with
`http`. -/
def resolveVariantUrl (resolveUrl : String → String → String)
    (masterUrl t : String) : String :=
  cond (strStarts t "http") t (resolveUrl t masterUrl)

/-- The document-order variant list of a master playlist: one entry per
`#EXT-X-STREAM-INF` line that is followed by a content line. -/
def parseAllVariantsRaw (resolveUrl : String → String → String)
    (masterUrl : String) : List String → List Variant
  | [] => []
  | line :: rest =>
    let t := jsTrim line
    cond (strStarts t "#EXT-X-STREAM-INF")
      (match firstContentLine rest with
       | some v =>
         ⟨resolveVariantUrl resolveUrl masterUrl v, findBandwidth t⟩
           :: parseAllVariantsRaw resolveUrl masterUrl rest
       | none => parseAllVariantsRaw resolveUrl masterUrl rest)
      (parseAllVariantsRaw resolveUrl masterUrl rest)

/-- Insert into a descending-bandwidth list, after existing elements of
strictly higher bandwidth and before the rest: together with `sortDescBw`
this models the stable `variants.sort((a, b) => b.bandwidth - a.bandwidth)`
(ties keep document order). -/
def insertDescBw (v : Variant) : List Variant → List Variant
  | [] => [v]
  | w :: ws => if w.bandwidth > v.bandwidth then w :: insertDescBw v ws else v :: w :: ws

/-- Stable sort by descending bandwidth. -/
def sortDescBw (l : List Variant) : List Variant := l.foldr insertDescBw []

/-- `parseAllVariants(masterContent, masterUrl)`: empty for a non-string or
empty payload (the guard), otherwise the parsed variants sorted by descending
bandwidth. -/
def parseAllVariants (resolveUrl : String → String → String)
    (masterContent masterUrl : String) : List Variant :=
  if masterContent = "" then []
  else sortDescBw (parseAllVariantsRaw resolveUrl masterUrl (splitLines masterContent))

/-- The truthy body lookup `m3u8Responses[url]`: `none` when the key is
absent or its body is the (falsy) empty string. -/
def capturedBody (responses : List (String × String)) (url : String) :
    Option String :=
  match responses.lookup url with
  | some b => if b = "" then none else some b
  | none => none

/-- Errors thrown by `resolveSegmentPlaylist`. -/
inductive ResolveError
  | masterNotCaptured
  | noVariants
  | noCapturedVariant (available : List String)
deriving Repr, DecidableEq

/-- The pair returned by `resolveSegmentPlaylist`. -/
structure ResolvedPlaylist where
  playlistUrl : String
  playlistContent : String
deriving Repr, DecidableEq

/-- The master branch of `resolveSegmentPlaylist` (lines 179-202): enumerate
variants in descending-bandwidth order and take the first with a (truthy)
captured body; `noVariants` when the master has none, `noCapturedVariant`
(listing each candidate's last URL component, in candidate order) when none
is captured. -/
def masterResolve (resolveUrl : String → String → String)
    (masterM3u8Url masterContent : String)
    (responses : List (String × String)) : Except ResolveError ResolvedPlaylist :=
  let variants := parseAllVariants resolveUrl masterContent masterM3u8Url
  if variants.isEmpty then Except.error ResolveError.noVariants
  else
    match variants.find? (fun v => (capturedBody responses v.url).isSome) with
    | some v =>
      Except.ok ⟨v.url, (capturedBody responses v.url).getD ""⟩
    | none =>
      Except.error (ResolveError.noCapturedVariant
        (variants.map (fun v => lastUrlComp v.url)))

/-- `resolveSegmentPlaylist(masterM3u8Url, m3u8Responses)` (lines 168-203):
fail if no (truthy) body is captured for the master URL; return the body
directly when it contains `.ts`; otherwise treat it as a master playlist. -/
def resolveSegmentPlaylist (resolveUrl : String → String → String)
    (masterM3u8Url : String) (responses : List (String × String)) :
    Except ResolveError ResolvedPlaylist :=
  match capturedBody responses masterM3u8Url with
  | none => Except.error ResolveError.masterNotCaptured
  | some masterContent =>
    cond (strHasSub masterContent ".ts")
      (Except.ok ⟨masterM3u8Url, masterContent⟩)
      (masterResolve resolveUrl masterM3u8Url masterContent responses)

theorem mem_insertDescBw (v x : Variant) (l : List Variant) :
    x ∈ insertDescBw v l ↔ x = v ∨ x ∈ l := by
  induction l with
  | nil => simp [insertDescBw]
  | cons w ws ih =>
    simp only [insertDescBw]
    by_cases h : w.bandwidth > v.bandwidth
    · rw [if_pos h]
      simp only [List.mem_cons, ih]
      tauto
    · rw [if_neg h]
      simp [List.mem_cons]

theorem perm_insertDescBw (v : Variant) (l : List Variant) :
    (insertDescBw v l).Perm (v :: l) := by
  induction l with
  | nil => exact List.Perm.refl _
  | cons w ws ih =>
    simp only [insertDescBw]
    by_cases h : w.bandwidth > v.bandwidth
    · rw [if_pos h]
      exact (ih.cons w).trans (List.Perm.swap v w ws)
    · rw [if_neg h]

theorem sortDescBw_perm (l : List Variant) : (sortDescBw l).Perm l := by
  induction l with
  | nil => exact List.Perm.refl _
  | cons a l ih => exact (perm_insertDescBw a (sortDescBw l)).trans (ih.cons a)

theorem pairwise_insertDescBw (v : Variant) (l : List Variant)
    (h : l.Pairwise (fun a b => b.bandwidth ≤ a.bandwidth)) :
    (insertDescBw v l).Pairwise (fun a b => b.bandwidth ≤ a.bandwidth) := by
  induction l with
  | nil => simp [insertDescBw]
  | cons w ws ih =>
    rcases List.pairwise_cons.mp h with ⟨hw, hws⟩
    simp only [insertDescBw]
    by_cases hgt : w.bandwidth > v.bandwidth
    · rw [if_pos hgt]
      refine List.pairwise_cons.mpr ⟨?_, ih hws⟩
      intro x hx
      rcases (mem_insertDescBw v x ws).mp hx with rfl | hx
      · exact le_of_lt hgt
      · exact hw x hx
    · rw [if_neg hgt]
      refine List.pairwise_cons.mpr ⟨?_, h⟩
      intro x hx
      rcases List.mem_cons.mp hx with rfl | hx
      · exact le_of_not_lt hgt
      · exact le_trans (hw x hx) (le_of_not_lt hgt)

theorem sortDescBw_sorted (l : List Variant) :
    (sortDescBw l).Pairwise (fun a b => b.bandwidth ≤ a.bandwidth) := by
  induction l with
  | nil => simp [sortDescBw]
  | cons a l ih => exact pairwise_insertDescBw a (sortDescBw l) ih

/-- A bandwidth-selective filter commutes with the stable insertion: elements
passing a filter that pins the bandwidth keep their relative order. -/
theorem filter_bwsel_insertDescBw (q : Variant → Bool) (b : Nat)
    (hq : ∀ w, q w = true → w.bandwidth = b) (v : Variant) (l : List Variant) :
    (insertDescBw v l).filter q =
      if q v = true then v :: l.filter q else l.filter q := by
  induction l with
  | nil =>
    by_cases hv : q v = true <;> simp [insertDescBw, List.filter_cons, hv]
  | cons w ws ih =>
    simp only [insertDescBw]
    by_cases hgt : w.bandwidth > v.bandwidth
    · rw [if_pos hgt]
      by_cases hv : q v = true
      · have hwq : q w = false := by
          cases hqw : q w
          · rfl
          · exact absurd ((hq w hqw).trans (hq v hv).symm) (by omega)
        simp [List.filter_cons, hwq, ih, hv]
      · have hv' : q v = false := by
          cases hqv : q v
          · rfl
          · exact absurd hqv hv
        simp [List.filter_cons, ih, hv']
    · rw [if_neg hgt]
      by_cases hv : q v = true <;> simp [List.filter_cons, hv]

/-- Stability of the descending sort: a filter that pins the bandwidth is
unchanged by sorting (document order within one bandwidth class). -/
theorem filter_bwsel_sortDescBw (q : Variant → Bool) (b : Nat)
    (hq : ∀ w, q w = true → w.bandwidth = b) (l : List Variant) :
    (sortDescBw l).filter q = l.filter q := by
  induction l with
  | nil => rfl
  | cons a l ih =>
    show List.filter q (insertDescBw a (sortDescBw l)) = List.filter q (a :: l)
    rw [filter_bwsel_insertDescBw q b hq a (sortDescBw l), List.filter_cons]
    by_cases ha : q a = true
    · rw [if_pos ha, ih, ha]
      simp
    · have ha' : q a = false := by
        cases hb : q a
        · rfl
        · exact absurd hb ha
      rw [if_neg ha, ih, ha']
      simp

/-- In a descending-sorted list the first element found is a maximum among
all elements satisfying the predicate. -/
theorem find?_bandwidth_max (p : Variant → Bool) (v : Variant) :
    ∀ l : List Variant, l.Pairwise (fun a b => b.bandwidth ≤ a.bandwidth) →
      l.find? p = some v → ∀ w ∈ l, p w = true → w.bandwidth ≤ v.bandwidth := by
  intro l
  induction l with
  | nil => intro _ h; cases h
  | cons a l ih =>
    intro hp h w hw hpw
    rcases List.pairwise_cons.mp hp with ⟨ha, hl⟩
    by_cases hpa : p a = true
    · rw [List.find?_cons_of_pos _ hpa] at h
      have hav : a = v := Option.some.inj h
      subst hav
      rcases List.mem_cons.mp hw with rfl | hw
      · exact le_refl _
      · exact ha w hw
    · have hpa' : p a = false := by
        cases hb : p a
        · rfl
        · exact absurd hb hpa
      rw [List.find?_cons_of_neg _ (by simp [hpa'])] at h
      rcases List.mem_cons.mp hw with rfl | hw
      · exact absurd hpw hpa
      · exact ih hl h w hw hpw

/-- The element found first also heads any filter that it satisfies and that
implies the search predicate's success positions. -/
theorem find?_head_of_filter (p q : Variant → Bool) (v : Variant) :
    ∀ l : List Variant, l.find? p = some v → q v = true →
      (l.filter (fun x => p x && q x)).head? = some v := by
  intro l
  induction l with
  | nil => intro h; cases h
  | cons a l ih =>
    intro h hqv
    by_cases hpa : p a = true
    · rw [List.find?_cons_of_pos _ hpa] at h
      have hav : a = v := Option.some.inj h
      subst hav
      simp [List.filter_cons, hpa, hqv]
    · have hpa' : p a = false := by
        cases hb : p a
        · rfl
        · exact absurd hb hpa
      rw [List.find?_cons_of_neg _ (by simp [hpa'])] at h
      simp [List.filter_cons, hpa', ih h hqv]

theorem capturedBody_ne_empty (responses : List (String × String))
    (url body : String) (h : capturedBody responses url = some body) :
    body ≠ "" := by
  intro hbe
  rw [hbe] at h
  unfold capturedBody at h
  cases hl : responses.lookup url with
  | none => rw [hl] at h; simp at h
  | some b =>
    rw [hl] at h
    by_cases hb : b = "" <;> simp [hb] at h

/-- C4: under a captured master body that is classified as a master playlist
(no `.ts` substring), `resolveSegmentPlaylist` selects the first variant, in
descending-bandwidth order with ties broken by document order, whose body is
(truthily) present in the captured set: the chosen variant is captured, its
bandwidth dominates every captured variant, and it is the document-order head
of the captured variants at that bandwidth.  With variants but none captured
it fails with `NoCapturedVariant` listing each candidate's last URL component
in candidate order; with no variants it fails with `noVariants`. -/
theorem resolve_selects_first_captured_variant
    (resolveUrl : String → String → String) (masterUrl body : String)
    (responses : List (String × String))
    (hcap : capturedBody responses masterUrl = some body)
    (hmaster : strHasSub body ".ts" = false) :
    match resolveSegmentPlaylist resolveUrl masterUrl responses with
    | Except.ok res =>
      ∃ v ∈ parseAllVariantsRaw resolveUrl masterUrl (splitLines body),
        (capturedBody responses v.url).isSome = true ∧
        res.playlistUrl = v.url ∧
        some res.playlistContent = capturedBody responses v.url ∧
        (∀ w ∈ parseAllVariantsRaw resolveUrl masterUrl (splitLines body),
          (capturedBody responses w.url).isSome = true →
            w.bandwidth ≤ v.bandwidth) ∧
        ((parseAllVariantsRaw resolveUrl masterUrl (splitLines body)).filter
          (fun w => (capturedBody responses w.url).isSome &&
            (w.bandwidth == v.bandwidth))).head? = some v
    | Except.error e =>
      (parseAllVariantsRaw resolveUrl masterUrl (splitLines body) = [] ∧
        e = ResolveError.noVariants) ∨
      ((∀ w ∈ parseAllVariantsRaw resolveUrl masterUrl (splitLines body),
          (capturedBody responses w.url).isSome = false) ∧
        e = ResolveError.noCapturedVariant
          ((sortDescBw (parseAllVariantsRaw resolveUrl masterUrl
            (splitLines body))).map (fun v => lastUrlComp v.url))) := by
  have hbody : body ≠ "" := capturedBody_ne_empty responses masterUrl body hcap
  have hres : resolveSegmentPlaylist resolveUrl masterUrl responses =
      masterResolve resolveUrl masterUrl body responses := by
    unfold resolveSegmentPlaylist
    rw [hcap]
    show cond (strHasSub body ".ts")
        (Except.ok ⟨masterUrl, body⟩)
        (masterResolve resolveUrl masterUrl body responses) =
      masterResolve resolveUrl masterUrl body responses
    rw [hmaster]
    rfl
  rw [hres]
  have hbF : (body = "") = False := eq_false hbody
  simp only [masterResolve, parseAllVariants, hbF, if_false]
  by_cases hemp : (sortDescBw (parseAllVariantsRaw resolveUrl masterUrl
      (splitLines body))).isEmpty = true
  · rw [if_pos hemp]
    have hnil : parseAllVariantsRaw resolveUrl masterUrl (splitLines body) = [] := by
      have hlen := (sortDescBw_perm (parseAllVariantsRaw resolveUrl masterUrl
        (splitLines body))).length_eq
      rw [List.isEmpty_iff] at hemp
      rw [hemp] at hlen
      exact List.length_eq_zero.mp hlen.symm
    exact Or.inl ⟨hnil, rfl⟩
  · rw [if_neg hemp]
    cases hfind : List.find? (fun v => (capturedBody responses v.url).isSome)
        (sortDescBw (parseAllVariantsRaw resolveUrl masterUrl (splitLines body))) with
    | some v =>
      have hpv0 := List.find?_some hfind
      have hpv : (capturedBody responses v.url).isSome = true := hpv0
      have hvmem : v ∈ sortDescBw (parseAllVariantsRaw resolveUrl masterUrl
          (splitLines body)) := List.mem_of_find?_eq_some hfind
      have hvdoc : v ∈ parseAllVariantsRaw resolveUrl masterUrl (splitLines body) :=
        ((sortDescBw_perm _).mem_iff).mp hvmem
      refine ⟨v, hvdoc, hpv, rfl, ?_, ?_, ?_⟩
      · cases hcb : capturedBody responses v.url with
        | none => rw [hcb] at hpv; cases hpv
        | some content => rfl
      · intro w hw hpw
        exact find?_bandwidth_max (fun v => (capturedBody responses v.url).isSome) v
          (sortDescBw (parseAllVariantsRaw resolveUrl masterUrl (splitLines body)))
          (sortDescBw_sorted _) hfind w (((sortDescBw_perm _).mem_iff).mpr hw) hpw
      · have hhead := find?_head_of_filter
          (fun v => (capturedBody responses v.url).isSome)
          (fun w => w.bandwidth == v.bandwidth) v
          (sortDescBw (parseAllVariantsRaw resolveUrl masterUrl (splitLines body)))
          hfind (by simp)
        have hstable := filter_bwsel_sortDescBw
          (fun x => (capturedBody responses x.url).isSome &&
            (x.bandwidth == v.bandwidth)) v.bandwidth
          (by
            intro w hw
            have h2 := (Bool.and_eq_true _ _).mp hw
            exact (by simpa using h2.2))
          (parseAllVariantsRaw resolveUrl masterUrl (splitLines body))
        rw [hstable] at hhead
        exact hhead
    | none =>
      refine Or.inr ⟨?_, rfl⟩
      intro w hw
      have hmem : w ∈ sortDescBw (parseAllVariantsRaw resolveUrl masterUrl
          (splitLines body)) := ((sortDescBw_perm _).mem_iff).mpr hw
      have hnp := List.find?_eq_none.mp hfind w hmem
      cases hb : (capturedBody responses w.url).isSome
      · rfl
      · exact absurd hb hnp

/-- Witness for `resolve_selects_first_captured_variant`: a master with
bandwidths `[500, 1200, 800]` where only the `800` variant's body is captured
— `resolve` picks the 800 variant, never the 1200 one. -/
theorem resolve_selects_first_captured_variant_witness :
    match resolveSegmentPlaylist (fun rel base => base ++ rel)
        "http://h/master.m3u8"
        [("http://h/master.m3u8",
          "#EXT-X-STREAM-INF:BANDWIDTH=500\nhttp://h/v500.m3u8\n#EXT-X-STREAM-INF:BANDWIDTH=1200\nhttp://h/v1200.m3u8\n#EXT-X-STREAM-INF:BANDWIDTH=800\nhttp://h/v800.m3u8"),
         ("http://h/v800.m3u8", "#EXTM3U\n0.ts")] with
    | Except.ok res =>
      ∃ v ∈ parseAllVariantsRaw (fun rel base => base ++ rel)
          "http://h/master.m3u8"
          (splitLines
            "#EXT-X-STREAM-INF:BANDWIDTH=500\nhttp://h/v500.m3u8\n#EXT-X-STREAM-INF:BANDWIDTH=1200\nhttp://h/v1200.m3u8\n#EXT-X-STREAM-INF:BANDWIDTH=800\nhttp://h/v800.m3u8"),
        (capturedBody [("http://h/master.m3u8",
          "#EXT-X-STREAM-INF:BANDWIDTH=500\nhttp://h/v500.m3u8\n#EXT-X-STREAM-INF:BANDWIDTH=1200\nhttp://h/v1200.m3u8\n#EXT-X-STREAM-INF:BANDWIDTH=800\nhttp://h/v800.m3u8"),
         ("http://h/v800.m3u8", "#EXTM3U\n0.ts")] v.url).isSome = true ∧
        res.playlistUrl = v.url ∧
        some res.playlistContent = capturedBody [("http://h/master.m3u8",
          "#EXT-X-STREAM-INF:BANDWIDTH=500\nhttp://h/v500.m3u8\n#EXT-X-STREAM-INF:BANDWIDTH=1200\nhttp://h/v1200.m3u8\n#EXT-X-STREAM-INF:BANDWIDTH=800\nhttp://h/v800.m3u8"),
         ("http://h/v800.m3u8", "#EXTM3U\n0.ts")] v.url ∧
        (∀ w ∈ parseAllVariantsRaw (fun rel base => base ++ rel)
            "http://h/master.m3u8"
            (splitLines
              "#EXT-X-STREAM-INF:BANDWIDTH=500\nhttp://h/v500.m3u8\n#EXT-X-STREAM-INF:BANDWIDTH=1200\nhttp://h/v1200.m3u8\n#EXT-X-STREAM-INF:BANDWIDTH=800\nhttp://h/v800.m3u8"),
          (capturedBody [("http://h/master.m3u8",
            "#EXT-X-STREAM-INF:BANDWIDTH=500\nhttp://h/v500.m3u8\n#EXT-X-STREAM-INF:BANDWIDTH=1200\nhttp://h/v1200.m3u8\n#EXT-X-STREAM-INF:BANDWIDTH=800\nhttp://h/v800.m3u8"),
           ("http://h/v800.m3u8", "#EXTM3U\n0.ts")] w.url).isSome = true →
            w.bandwidth ≤ v.bandwidth) ∧
        ((parseAllVariantsRaw (fun rel base => base ++ rel)
            "http://h/master.m3u8"
            (splitLines
              "#EXT-X-STREAM-INF:BANDWIDTH=500\nhttp://h/v500.m3u8\n#EXT-X-STREAM-INF:BANDWIDTH=1200\nhttp://h/v1200.m3u8\n#EXT-X-STREAM-INF:BANDWIDTH=800\nhttp://h/v800.m3u8")).filter
          (fun w => (capturedBody [("http://h/master.m3u8",
            "#EXT-X-STREAM-INF:BANDWIDTH=500\nhttp://h/v500.m3u8\n#EXT-X-STREAM-INF:BANDWIDTH=1200\nhttp://h/v1200.m3u8\n#EXT-X-STREAM-INF:BANDWIDTH=800\nhttp://h/v800.m3u8"),
           ("http://h/v800.m3u8", "#EXTM3U\n0.ts")] w.url).isSome &&
            (w.bandwidth == v.bandwidth))).head? = some v
    | Except.error _ => False :=
  resolve_selects_first_captured_variant (fun rel base => base ++ rel)
    "http://h/master.m3u8"
    "#EXT-X-STREAM-INF:BANDWIDTH=500\nhttp://h/v500.m3u8\n#EXT-X-STREAM-INF:BANDWIDTH=1200\nhttp://h/v1200.m3u8\n#EXT-X-STREAM-INF:BANDWIDTH=800\nhttp://h/v800.m3u8"
    [("http://h/master.m3u8",
      "#EXT-X-STREAM-INF:BANDWIDTH=500\nhttp://h/v500.m3u8\n#EXT-X-STREAM-INF:BANDWIDTH=1200\nhttp://h/v1200.m3u8\n#EXT-X-STREAM-INF:BANDWIDTH=800\nhttp://h/v800.m3u8"),
     ("http://h/v800.m3u8", "#EXTM3U\n0.ts")] rfl (by decide)

/-- C7 counterexample: a captured body whose only `.ts` occurrence sits on a
comment line (`#EXTM3U tags.ts`) — no content (non-comment) line carries the
segment-extension marker at all — is nevertheless classified as a media
playlist and returned directly, because the code tests
`masterContent.includes('.ts')` over the whole body. -/
theorem resolve_media_substring_counterexample :
    resolveSegmentPlaylist (fun rel base => base ++ rel) "http://h/m.m3u8"
        [("http://h/m.m3u8",
          "#EXTM3U tags.ts\n#EXT-X-STREAM-INF:BANDWIDTH=100\nhttp://h/v.m3u8")] =
      Except.ok ⟨"http://h/m.m3u8",
        "#EXTM3U tags.ts\n#EXT-X-STREAM-INF:BANDWIDTH=100\nhttp://h/v.m3u8"⟩ ∧
    (splitLines "#EXTM3U tags.ts\n#EXT-X-STREAM-INF:BANDWIDTH=100\nhttp://h/v.m3u8").all
      (fun l => (jsTrim l == "" || strStarts (jsTrim l) "#" ||
        !strHasSub (jsTrim l) ".ts")) = true :=
  ⟨rfl, by decide⟩

/-- C7 amended: for a captured body, `resolveSegmentPlaylist` classifies it as
a media playlist — returning it directly — exactly when the body contains the
substring `.ts` anywhere (comment/tag lines included), and otherwise hands it
to the master-playlist treatment. -/
theorem resolve_media_by_substring (resolveUrl : String → String → String)
    (masterUrl body : String) (responses : List (String × String))
    (hcap : capturedBody responses masterUrl = some body) :
    (strHasSub body ".ts" = true →
      resolveSegmentPlaylist resolveUrl masterUrl responses =
        Except.ok ⟨masterUrl, body⟩) ∧
    (strHasSub body ".ts" = false →
      resolveSegmentPlaylist resolveUrl masterUrl responses =
        masterResolve resolveUrl masterUrl body responses) := by
  constructor
  · intro h
    unfold resolveSegmentPlaylist
    rw [hcap]
    show cond (strHasSub body ".ts")
        (Except.ok ⟨masterUrl, body⟩)
        (masterResolve resolveUrl masterUrl body responses) =
      Except.ok ⟨masterUrl, body⟩
    rw [h]
    rfl
  · intro h
    unfold resolveSegmentPlaylist
    rw [hcap]
    show cond (strHasSub body ".ts")
        (Except.ok ⟨masterUrl, body⟩)
        (masterResolve resolveUrl masterUrl body responses) =
      masterResolve resolveUrl masterUrl body responses
    rw [h]
    rfl

/-- Witness for `resolve_media_by_substring`: a captured body with a `.ts`
segment line is returned directly. -/
theorem resolve_media_by_substring_witness :
    resolveSegmentPlaylist (fun rel base => base ++ rel) "http://h/i.m3u8"
        [("http://h/i.m3u8", "#EXTM3U\nseg0.ts")] =
      Except.ok ⟨"http://h/i.m3u8", "#EXTM3U\nseg0.ts"⟩ :=
  (resolve_media_by_substring (fun rel base => base ++ rel) "http://h/i.m3u8"
    "#EXTM3U\nseg0.ts" [("http://h/i.m3u8", "#EXTM3U\nseg0.ts")] rfl).1 (by decide)

/-! ## SegmentFetcher: `downloadSegment` (src/downloader.js lines 64-102,
identically structured in the browser-fetch variant lines 128-159)

The fetch capability is an opaque attempt-indexed function: invocation `a`
(1-based) returns either the segment bytes or an error message (any non-ok
HTTP status or thrown error).  The model returns, besides the result, the
number of capability invocations and the list of backoff waits (in
milliseconds) actually performed. -/

/-- The backoff before the next attempt after failed attempt `attempt`:
`Math.pow(2, attempt - 1) * 1000` milliseconds. -/
def backoffMs (attempt : Nat) : Nat := 2 ^ (attempt - 1) * 1000

/-- Outcome of a `downloadSegment` run: final result, number of capability
calls, and the performed waits in order. -/
structure FetchRun where
  result : Except String String
  calls : Nat
  waits : List Nat
deriving Repr

/-- The retry loop of `downloadSegment`, from attempt number `attempt` with
the most recent error `lastError`: try the capability; on success return the
bytes; on failure wait `backoffMs attempt` unless this was the last attempt,
and continue; after `retryCount` failed attempts throw
`Failed to download segment after ... attempts`. -/
def downloadSegmentAux (fetchCap : Nat → Except String String)
    (retryCount : Nat) (attempt : Nat) (lastError : String) : FetchRun :=
  if attempt > retryCount then
    ⟨Except.error ("Failed to download segment after " ++ toString retryCount ++
      " attempts: " ++ lastError), 0, []⟩
  else
    match fetchCap attempt with
    | Except.ok bytes => ⟨Except.ok bytes, 1, []⟩
    | Except.error e =>
      let rest := downloadSegmentAux fetchCap retryCount (attempt + 1) e
      ⟨rest.result, rest.calls + 1,
        (if attempt < retryCount then [backoffMs attempt] else []) ++ rest.waits⟩
termination_by retryCount + 1 - attempt
decreasing_by omega

/-- `downloadSegment(url, ..., retryCount = 3)`: the loop starts at attempt 1
with no prior error. -/
def downloadSegment (fetchCap : Nat → Except String String)
    (retryCount : Nat := 3) : FetchRun :=
  downloadSegmentAux fetchCap retryCount 1 ""

theorem downloadSegmentAux_stop (fetchCap : Nat → Except String String)
    (retryCount attempt : Nat) (lastError : String) (h : attempt > retryCount) :
    downloadSegmentAux fetchCap retryCount attempt lastError =
      ⟨Except.error ("Failed to download segment after " ++ toString retryCount ++
        " attempts: " ++ lastError), 0, []⟩ := by
  rw [downloadSegmentAux, if_pos h]

theorem downloadSegmentAux_step_ok (fetchCap : Nat → Except String String)
    (retryCount attempt : Nat) (lastError bytes : String)
    (h : ¬ attempt > retryCount) (hf : fetchCap attempt = Except.ok bytes) :
    downloadSegmentAux fetchCap retryCount attempt lastError =
      ⟨Except.ok bytes, 1, []⟩ := by
  rw [downloadSegmentAux, if_neg h, hf]

theorem downloadSegmentAux_step_err (fetchCap : Nat → Except String String)
    (retryCount attempt : Nat) (lastError e : String)
    (h : ¬ attempt > retryCount) (hf : fetchCap attempt = Except.error e) :
    downloadSegmentAux fetchCap retryCount attempt lastError =
      ⟨(downloadSegmentAux fetchCap retryCount (attempt + 1) e).result,
        (downloadSegmentAux fetchCap retryCount (attempt + 1) e).calls + 1,
        (if attempt < retryCount then [backoffMs attempt] else []) ++
          (downloadSegmentAux fetchCap retryCount (attempt + 1) e).waits⟩ := by
  rw [downloadSegmentAux, if_neg h, hf]

theorem downloadSegmentAux_calls_le (fetchCap : Nat → Except String String)
    (retryCount : Nat) :
    ∀ d attempt lastError, retryCount + 1 - attempt ≤ d →
      (downloadSegmentAux fetchCap retryCount attempt lastError).calls ≤
        retryCount + 1 - attempt := by
  intro d
  induction d with
  | zero =>
    intro attempt lastError hd
    have hgt : attempt > retryCount := by omega
    rw [downloadSegmentAux_stop fetchCap retryCount attempt lastError hgt]
    exact Nat.zero_le _
  | succ d ih =>
    intro attempt lastError hd
    by_cases hgt : attempt > retryCount
    · rw [downloadSegmentAux_stop fetchCap retryCount attempt lastError hgt]
      exact Nat.zero_le _
    · cases hf : fetchCap attempt with
      | ok bytes =>
        rw [downloadSegmentAux_step_ok fetchCap retryCount attempt lastError
          bytes hgt hf]
        show 1 ≤ retryCount + 1 - attempt
        omega
      | error e =>
        rw [downloadSegmentAux_step_err fetchCap retryCount attempt lastError
          e hgt hf]
        show (downloadSegmentAux fetchCap retryCount (attempt + 1) e).calls + 1 ≤
          retryCount + 1 - attempt
        have := ih (attempt + 1) e (by omega)
        omega

theorem downloadSegmentAux_all_fail (fetchCap : Nat → Except String String)
    (retryCount : Nat) :
    ∀ d attempt lastError, retryCount - attempt = d → 1 ≤ attempt →
      attempt ≤ retryCount →
      (∀ a, attempt ≤ a → a ≤ retryCount → isErr (fetchCap a) = true) →
      isErr (downloadSegmentAux fetchCap retryCount attempt lastError).result = true ∧
      (downloadSegmentAux fetchCap retryCount attempt lastError).calls =
        retryCount + 1 - attempt ∧
      (downloadSegmentAux fetchCap retryCount attempt lastError).waits =
        (List.range' attempt (retryCount - attempt)).map backoffMs := by
  intro d
  induction d with
  | zero =>
    intro attempt lastError hd h1 hle hfail
    cases hf : fetchCap attempt with
    | ok bytes =>
      have hbad := hfail attempt (le_refl _) hle
      rw [hf] at hbad
      cases hbad
    | error e =>
      rw [downloadSegmentAux_step_err fetchCap retryCount attempt lastError
        e (by omega) hf,
        downloadSegmentAux_stop fetchCap retryCount (attempt + 1) e (by omega)]
      refine ⟨rfl, ?_, ?_⟩
      · show 0 + 1 = retryCount + 1 - attempt
        omega
      · show (if attempt < retryCount then [backoffMs attempt] else []) ++ [] =
          (List.range' attempt (retryCount - attempt)).map backoffMs
        have hz : retryCount - attempt = 0 := by omega
        have hnlt : ¬ attempt < retryCount := by omega
        simp [hz, hnlt]
  | succ d ih =>
    intro attempt lastError hd h1 hle hfail
    have hlt : attempt < retryCount := by omega
    cases hf : fetchCap attempt with
    | ok bytes =>
      have hbad := hfail attempt (le_refl _) (by omega)
      rw [hf] at hbad
      cases hbad
    | error e =>
      have hrec := ih (attempt + 1) e (by omega) (by omega) (by omega)
        (fun a ha hb => hfail a (by omega) hb)
      rw [downloadSegmentAux_step_err fetchCap retryCount attempt lastError
        e (by omega) hf]
      refine ⟨hrec.1, ?_, ?_⟩
      · show (downloadSegmentAux fetchCap retryCount (attempt + 1) e).calls + 1 =
          retryCount + 1 - attempt
        rw [hrec.2.1]
        omega
      · show (if attempt < retryCount then [backoffMs attempt] else []) ++
          (downloadSegmentAux fetchCap retryCount (attempt + 1) e).waits =
          (List.range' attempt (retryCount - attempt)).map backoffMs
        rw [hrec.2.2, if_pos hlt]
        have hr : retryCount - attempt = (retryCount - (attempt + 1)) + 1 := by omega
        rw [hr]
        simp [List.range']

theorem downloadSegmentAux_succeeds (fetchCap : Nat → Except String String)
    (retryCount : Nat) :
    ∀ d attempt lastError k bytes, k - attempt = d → 1 ≤ attempt →
      attempt ≤ k → k ≤ retryCount →
      (∀ a, attempt ≤ a → a < k → isErr (fetchCap a) = true) →
      fetchCap k = Except.ok bytes →
      downloadSegmentAux fetchCap retryCount attempt lastError =
        ⟨Except.ok bytes, k + 1 - attempt,
          (List.range' attempt (k - attempt)).map backoffMs⟩ := by
  intro d
  induction d with
  | zero =>
    intro attempt lastError k bytes hd h1 hak hkr hfail hk
    have heq : attempt = k := by omega
    subst heq
    rw [downloadSegmentAux_step_ok fetchCap retryCount attempt lastError
      bytes (by omega) hk]
    have hc : attempt + 1 - attempt = 1 := by omega
    have hw : attempt - attempt = 0 := by omega
    rw [hc, hw]
    rfl
  | succ d ih =>
    intro attempt lastError k bytes hd h1 hak hkr hfail hk
    have hlt : attempt < k := by omega
    cases hf : fetchCap attempt with
    | ok b =>
      have hbad := hfail attempt (le_refl _) hlt
      rw [hf] at hbad
      cases hbad
    | error e =>
      have hrec := ih (attempt + 1) e k bytes (by omega) (by omega) (by omega)
        hkr (fun a ha hb => hfail a (by omega) hb) hk
      rw [downloadSegmentAux_step_err fetchCap retryCount attempt lastError
        e (by omega) hf, hrec]
      have hcalls : k + 1 - (attempt + 1) + 1 = k + 1 - attempt := by omega
      have hwl : attempt < retryCount := by omega
      have hr : k - attempt = (k - (attempt + 1)) + 1 := by omega
      rw [if_pos hwl, hr]
      simp [List.range', hcalls]
      omega

/-- C6: `downloadSegment` with `maxAttempts = retryCount ≥ 1` invokes the
capability at most `retryCount` times.  A capability that always fails yields
an error after exactly `retryCount` calls, with waits of
`2^(attempt-1)` seconds (1000·2^0, 1000·2^1, … ms) between consecutive
attempts and no wait after the last.  A capability that first succeeds at
attempt `k ≤ retryCount` yields its bytes after exactly `k` calls, with
exactly the first `k - 1` backoff waits. -/
theorem downloadSegment_retry_policy (fetchCap : Nat → Except String String)
    (retryCount : Nat) (hrc : 1 ≤ retryCount) :
    (downloadSegment fetchCap retryCount).calls ≤ retryCount ∧
    ((∀ a, 1 ≤ a → a ≤ retryCount → isErr (fetchCap a) = true) →
      isErr (downloadSegment fetchCap retryCount).result = true ∧
      (downloadSegment fetchCap retryCount).calls = retryCount ∧
      (downloadSegment fetchCap retryCount).waits =
        (List.range (retryCount - 1)).map (fun i => 2 ^ i * 1000)) ∧
    (∀ k bytes, 1 ≤ k → k ≤ retryCount →
      (∀ a, 1 ≤ a → a < k → isErr (fetchCap a) = true) →
      fetchCap k = Except.ok bytes →
      (downloadSegment fetchCap retryCount).result = Except.ok bytes ∧
      (downloadSegment fetchCap retryCount).calls = k ∧
      (downloadSegment fetchCap retryCount).waits =
        (List.range (k - 1)).map (fun i => 2 ^ i * 1000)) := by
  have hconv : ∀ n : Nat, (List.range' 1 n).map backoffMs =
      (List.range n).map (fun i => 2 ^ i * 1000) := by
    intro n
    rw [List.range'_eq_map_range]
    rw [List.map_map]
    apply List.map_congr_left
    intro i _
    simp [backoffMs]
  refine ⟨?_, ?_, ?_⟩
  · have := downloadSegmentAux_calls_le fetchCap retryCount
      (retryCount + 1 - 1) 1 "" (by omega)
    unfold downloadSegment
    omega
  · intro hfail
    have h := downloadSegmentAux_all_fail fetchCap retryCount
      (retryCount - 1) 1 "" rfl (le_refl _) hrc hfail
    unfold downloadSegment
    refine ⟨h.1, ?_, by rw [h.2.2]; exact hconv _⟩
    rw [h.2.1]
    omega
  · intro k bytes hk1 hkr hfail hk
    have h := downloadSegmentAux_succeeds fetchCap retryCount
      (k - 1) 1 "" k bytes rfl (le_refl _) hk1 hkr hfail hk
    unfold downloadSegment
    rw [h]
    refine ⟨rfl, ?_, ?_⟩
    · show k + 1 - 1 = k
      omega
    · show (List.range' 1 (k - 1)).map backoffMs =
        (List.range (k - 1)).map (fun i => 2 ^ i * 1000)
      exact hconv _

/-- Witness for `downloadSegment_retry_policy`: a capability failing on the
first two attempts and succeeding on the third, under `maxAttempts = 3`,
yields the bytes after exactly 3 calls with waits of 1000 ms and 2000 ms. -/
theorem downloadSegment_retry_policy_witness :
    (downloadSegment
        (fun a => if a ≥ 3 then Except.ok "bytes" else Except.error "HTTP 500")
        3).result = Except.ok "bytes" ∧
    (downloadSegment
        (fun a => if a ≥ 3 then Except.ok "bytes" else Except.error "HTTP 500")
        3).calls = 3 ∧
    (downloadSegment
        (fun a => if a ≥ 3 then Except.ok "bytes" else Except.error "HTTP 500")
        3).waits = (List.range (3 - 1)).map (fun i => 2 ^ i * 1000) :=
  (downloadSegment_retry_policy
    (fun a => if a ≥ 3 then Except.ok "bytes" else Except.error "HTTP 500")
    3 (by omega)).2.2 3 "bytes" (by omega) (by omega)
    (by intro a h1 h2; interval_cases a <;> decide) rfl

/-! ## DownloadOrchestrator: the catalog loop of `downloadCourse`
(src/index.js lines 93-131)

Per-lesson outcomes are abstracted by two oracles: `fetchOk n` — whether
`downloadLesson` succeeds for lesson number `n` — and `mergeOk n` — whether
`mergeSegments` then succeeds.  The loop state is the `completed` list
(`progress.completed`); the model returns the final completed list together
with the list of lesson numbers that were actually attempted (not skipped). -/

/-- The catalog loop: skip a lesson number already in `completed`; otherwise
attempt it, and append it to `completed` (persisting via `saveProgress`) only
when both the download and the merge succeed; on any failure log and
continue. -/
def runCatalog (fetchOk mergeOk : Nat → Bool) :
    List Nat → List Nat → List Nat × List Nat
  | [], completed => (completed, [])
  | l :: rest, completed =>
    if l ∈ completed then runCatalog fetchOk mergeOk rest completed
    else
      if fetchOk l && mergeOk l then
        let r := runCatalog fetchOk mergeOk rest (completed ++ [l])
        (r.1, l :: r.2)
      else
        let r := runCatalog fetchOk mergeOk rest completed
        (r.1, l :: r.2)

theorem mem_runCatalog_final (fetchOk mergeOk : Nat → Bool) :
    ∀ (lessons completed : List Nat) (n : Nat),
      n ∈ (runCatalog fetchOk mergeOk lessons completed).1 ↔
        n ∈ completed ∨ (n ∈ lessons ∧ fetchOk n = true ∧ mergeOk n = true) := by
  intro lessons
  induction lessons with
  | nil => intro completed n; simp [runCatalog]
  | cons l rest ih =>
    intro completed n
    simp only [runCatalog]
    by_cases hmem : l ∈ completed
    · rw [if_pos hmem, ih]
      constructor
      · rintro (h | ⟨h1, h2, h3⟩)
        · exact Or.inl h
        · exact Or.inr ⟨List.mem_cons_of_mem l h1, h2, h3⟩
      · rintro (h | ⟨h1, h2, h3⟩)
        · exact Or.inl h
        · rcases List.mem_cons.mp h1 with rfl | h1
          · exact Or.inl hmem
          · exact Or.inr ⟨h1, h2, h3⟩
    · rw [if_neg hmem]
      by_cases hok : (fetchOk l && mergeOk l) = true
      · rw [if_pos hok]
        rcases (Bool.and_eq_true _ _).mp hok with ⟨hf, hm⟩
        show n ∈ (runCatalog fetchOk mergeOk rest (completed ++ [l])).1 ↔ _
        rw [ih]
        simp only [List.mem_append, List.mem_singleton, List.mem_cons]
        constructor
        · rintro ((h | rfl | hemp) | ⟨h1, h2, h3⟩)
          · exact Or.inl h
          · exact Or.inr ⟨Or.inl rfl, hf, hm⟩
          · cases hemp
          · exact Or.inr ⟨Or.inr h1, h2, h3⟩
        · rintro (h | ⟨rfl | h1, h2, h3⟩)
          · exact Or.inl (Or.inl h)
          · exact Or.inl (Or.inr (Or.inl rfl))
          · exact Or.inr ⟨h1, h2, h3⟩
      · rw [if_neg hok]
        show n ∈ (runCatalog fetchOk mergeOk rest completed).1 ↔ _
        rw [ih]
        simp only [List.mem_cons]
        constructor
        · rintro (h | ⟨h1, h2, h3⟩)
          · exact Or.inl h
          · exact Or.inr ⟨Or.inr h1, h2, h3⟩
        · rintro (h | ⟨rfl | h1, h2, h3⟩)
          · exact Or.inl h
          · exact absurd (by rw [h2, h3]; rfl) hok
          · exact Or.inr ⟨h1, h2, h3⟩

theorem mem_runCatalog_attempted (fetchOk mergeOk : Nat → Bool) :
    ∀ (lessons completed : List Nat) (n : Nat),
      n ∈ (runCatalog fetchOk mergeOk lessons completed).2 ↔
        n ∈ lessons ∧ n ∉ completed := by
  intro lessons
  induction lessons with
  | nil => intro completed n; simp [runCatalog]
  | cons l rest ih =>
    intro completed n
    simp only [runCatalog]
    by_cases hmem : l ∈ completed
    · rw [if_pos hmem, ih]
      simp only [List.mem_cons]
      constructor
      · rintro ⟨h1, h2⟩
        exact ⟨Or.inr h1, h2⟩
      · rintro ⟨rfl | h1, h2⟩
        · exact absurd hmem h2
        · exact ⟨h1, h2⟩
    · rw [if_neg hmem]
      by_cases hok : (fetchOk l && mergeOk l) = true
      · rw [if_pos hok]
        show n ∈ l :: (runCatalog fetchOk mergeOk rest (completed ++ [l])).2 ↔ _
        simp only [List.mem_cons, ih, List.mem_append, List.mem_singleton]
        constructor
        · rintro (rfl | ⟨h1, h2⟩)
          · exact ⟨Or.inl rfl, hmem⟩
          · exact ⟨Or.inr h1, fun hc => h2 (Or.inl hc)⟩
        · rintro ⟨rfl | h1, h2⟩
          · exact Or.inl rfl
          · by_cases hnl : n = l
            · exact Or.inl hnl
            · refine Or.inr ⟨h1, fun hc => ?_⟩
              rcases hc with hc | hc | hc
              · exact h2 hc
              · exact hnl hc
              · cases hc
      · rw [if_neg hok]
        show n ∈ l :: (runCatalog fetchOk mergeOk rest completed).2 ↔ _
        simp only [List.mem_cons, ih]
        constructor
        · rintro (rfl | ⟨h1, h2⟩)
          · exact ⟨Or.inl rfl, hmem⟩
          · exact ⟨Or.inr h1, h2⟩
        · rintro ⟨rfl | h1, h2⟩
          · exact Or.inl rfl
          · exact Or.inr ⟨h1, h2⟩

/-- C3: in the catalog loop, (i) starting from an empty completed set, a
lesson number enters the persisted completed list only if it is in the
catalog and BOTH its download and its merge succeeded — never on partial
success; (ii) a second run over the same catalog, seeded with the first run's
completed list, attempts exactly the catalog lessons missing from that list:
every completed ordinal is skipped and every previously failed ordinal is
retried. -/
theorem runCatalog_resume (fetchOk mergeOk : Nat → Bool) (lessons : List Nat) :
    (∀ n, n ∈ (runCatalog fetchOk mergeOk lessons []).1 →
      n ∈ lessons ∧ fetchOk n = true ∧ mergeOk n = true) ∧
    (∀ (fetchOk2 mergeOk2 : Nat → Bool) (n : Nat), n ∈ lessons →
      (n ∈ (runCatalog fetchOk2 mergeOk2 lessons
          (runCatalog fetchOk mergeOk lessons []).1).2 ↔
        n ∉ (runCatalog fetchOk mergeOk lessons []).1)) := by
  constructor
  · intro n hn
    rcases (mem_runCatalog_final fetchOk mergeOk lessons [] n).mp hn with h | h
    · cases h
    · exact h
  · intro fetchOk2 mergeOk2 n hn
    rw [mem_runCatalog_attempted]
    constructor
    · rintro ⟨_, h2⟩
      exact h2
    · intro h
      exact ⟨hn, h⟩

/-- Witness for `runCatalog_resume`: with catalog `[1, 2, 3]` where lesson 3
fails its merge on the first run, the first run completes `{1, 2}`; the
second run skips 1 and 2 and retries exactly 3. -/
theorem runCatalog_resume_witness :
    (runCatalog (fun _ => true) (fun k => !(k == 3)) [1, 2, 3] []).1 = [1, 2] ∧
    (2 ∈ (runCatalog (fun _ => true) (fun k => !(k == 3)) [1, 2, 3] []).1 →
      2 ∈ [1, 2, 3] ∧ (fun _ => true) 2 = true ∧ (fun k => !(k == 3)) 2 = true) ∧
    ((3 : Nat) ∈ (runCatalog (fun _ => true) (fun _ => true) [1, 2, 3]
        (runCatalog (fun _ => true) (fun k => !(k == 3)) [1, 2, 3] []).1).2 ↔
      (3 : Nat) ∉ (runCatalog (fun _ => true) (fun k => !(k == 3)) [1, 2, 3] []).1) :=
  ⟨by decide,
    (runCatalog_resume (fun _ => true) (fun k => !(k == 3)) [1, 2, 3]).1 2,
    (runCatalog_resume (fun _ => true) (fun k => !(k == 3)) [1, 2, 3]).2
      (fun _ => true) (fun _ => true) 3 (by decide)⟩

/-! ## utils: `slugify` (src/utils.js lines 48-60)

`slugify` pipelines seven JavaScript string operations: lowercase, trim,
replace every `&` by `and`, delete every character outside `[\\w\\s-]`,
replace each whitespace run by one hyphen, collapse hyphen runs, and strip
one leading and one trailing hyphen.  `toLowerCase` is modelled by the
basic-latin `Char.toLower` (non-ASCII letters are unchanged here; in either
semantics they are removed by the word-character filter, which matches ASCII
only). -/

/-- JS `\\w`: `[A-Za-z0-9_]`. -/
def isWordChar (c : Char) : Bool :=
  (97 ≤ c.toNat && c.toNat ≤ 122) || (65 ≤ c.toNat && c.toNat ≤ 90) ||
    (48 ≤ c.toNat && c.toNat ≤ 57) || c = '_'

/-- Replace every `&` by `and`. -/
def expandAmp : List Char → List Char
  | [] => []
  | c :: rest => (if c = '&' then ['a', 'n', 'd'] else [c]) ++ expandAmp rest

/-- Delete every character outside `[\\w\\s-]`: keep word characters,
whitespace and hyphens. -/
def keepSlugChars (l : List Char) : List Char :=
  l.filter (fun c => isWordChar c || jsIsSpace c || c = '-')

/-- Each maximal whitespace run becomes one hyphen (`prevSpace` tracks
whether the previous character was part of a run). -/
def collapseWs : Bool → List Char → List Char
  | _, [] => []
  | prevSpace, c :: rest =>
    if jsIsSpace c then
      match prevSpace with
      | true => collapseWs true rest
      | false => '-' :: collapseWs true rest
    else c :: collapseWs false rest

/-- Each maximal hyphen run becomes one hyphen. -/
def collapseHy : Bool → List Char → List Char
  | _, [] => []
  | prevHy, c :: rest =>
    if c = '-' then
      match prevHy with
      | true => collapseHy true rest
      | false => '-' :: collapseHy true rest
    else c :: collapseHy false rest

/-- Drop one leading hyphen (the caret half of the final regex). -/
def stripLeadHy : List Char → List Char
  | [] => []
  | c :: rest => if c = '-' then rest else c :: rest

/-- Drop one trailing hyphen (the dollar half of the final regex). -/
def stripTrailHy : List Char → List Char
  | [] => []
  | [c] => if c = '-' then [] else [c]
  | c :: c2 :: rest => c :: stripTrailHy (c2 :: rest)

/-- The character pipeline of `slugify` on a non-empty string payload. -/
def slugifyChars (l : List Char) : List Char :=
  stripTrailHy (stripLeadHy (collapseHy false (collapseWs false
    (keepSlugChars (expandAmp (trimChars (l.map Char.toLower)))))))

/-- `slugify(str)`: the empty string for a non-string (`none`) or empty
payload, otherwise the pipeline above. -/
def slugify : Option String → String
  | none => ""
  | some s => if s = "" then "" else String.mk (slugifyChars s.toList)

/-- The characters the claim allows in `slugify` output: lowercase ASCII
letters, digits, underscore, hyphen. -/
def isSlugOutChar (c : Char) : Bool :=
  (97 ≤ c.toNat && c.toNat ≤ 122) || (48 ≤ c.toNat && c.toNat ≤ 57) ||
    c = '_' || c = '-'

/-- No two adjacent hyphens. -/
def noDoubleHy : List Char → Bool
  | [] => true
  | [_] => true
  | a :: b :: rest => !(a = '-' && b = '-') && noDoubleHy (b :: rest)

theorem toNat_ofNat_valid (n : Nat) (h : n.isValidChar) :
    (Char.ofNat n).toNat = n := by
  rw [Char.ofNat, dif_pos h]
  simp [Char.ofNatAux, Char.toNat, UInt32.toNat]

theorem toLower_not_upper (c : Char) :
    ¬(65 ≤ (Char.toLower c).toNat ∧ (Char.toLower c).toNat ≤ 90) := by
  unfold Char.toLower
  by_cases h : c.toNat ≥ 65 ∧ c.toNat ≤ 90
  · rw [if_pos h]
    have hv : (c.toNat + 32).isValidChar := Or.inl (by omega)
    rw [toNat_ofNat_valid _ hv]
    omega
  · rw [if_neg h]
    omega

theorem mem_trimChars {x : Char} {l : List Char} (h : x ∈ trimChars l) :
    x ∈ l := by
  unfold trimChars at h
  rw [List.mem_reverse] at h
  have h1 := (List.dropWhile_sublist _).subset h
  rw [List.mem_reverse] at h1
  exact (List.dropWhile_sublist _).subset h1

theorem mem_expandAmp {x : Char} :
    ∀ l, x ∈ expandAmp l → x ∈ l ∨ x = 'a' ∨ x = 'n' ∨ x = 'd' := by
  intro l
  induction l with
  | nil => intro h; cases h
  | cons c rest ih =>
    intro h
    simp only [expandAmp] at h
    rcases List.mem_append.mp h with h | h
    · by_cases hc : c = '&'
      · rw [if_pos hc] at h
        rcases List.mem_cons.mp h with rfl | h
        · exact Or.inr (Or.inl rfl)
        rcases List.mem_cons.mp h with rfl | h
        · exact Or.inr (Or.inr (Or.inl rfl))
        rcases List.mem_cons.mp h with rfl | h
        · exact Or.inr (Or.inr (Or.inr rfl))
        · cases h
      · rw [if_neg hc] at h
        rcases List.mem_cons.mp h with rfl | h
        · exact Or.inl (List.mem_cons_self _ _)
        · cases h
    · rcases ih h with h | h
      · exact Or.inl (List.mem_cons_of_mem _ h)
      · exact Or.inr h

theorem collapseWs_cons_nsp (b : Bool) (c : Char) (rest : List Char)
    (hc : ¬ jsIsSpace c = true) :
    collapseWs b (c :: rest) = c :: collapseWs false rest := by
  show (if jsIsSpace c = true then
      (match b with
        | true => collapseWs true rest
        | false => '-' :: collapseWs true rest)
    else c :: collapseWs false rest) = c :: collapseWs false rest
  rw [if_neg hc]

theorem collapseWs_cons_sp_true (c : Char) (rest : List Char)
    (hc : jsIsSpace c = true) :
    collapseWs true (c :: rest) = collapseWs true rest := by
  show (if jsIsSpace c = true then collapseWs true rest
    else c :: collapseWs false rest) = collapseWs true rest
  rw [if_pos hc]

theorem collapseWs_cons_sp_false (c : Char) (rest : List Char)
    (hc : jsIsSpace c = true) :
    collapseWs false (c :: rest) = '-' :: collapseWs true rest := by
  show (if jsIsSpace c = true then '-' :: collapseWs true rest
    else c :: collapseWs false rest) = '-' :: collapseWs true rest
  rw [if_pos hc]

theorem mem_collapseWs {x : Char} :
    ∀ (l : List Char) (b : Bool), x ∈ collapseWs b l →
      (x ∈ l ∧ jsIsSpace x = false) ∨ x = '-' := by
  intro l
  induction l with
  | nil => intro b h; cases h
  | cons c rest ih =>
    intro b h
    by_cases hc : jsIsSpace c = true
    · cases b with
      | true =>
        rw [collapseWs_cons_sp_true c rest hc] at h
        rcases ih true h with ⟨h1, h2⟩ | h1
        · exact Or.inl ⟨List.mem_cons_of_mem _ h1, h2⟩
        · exact Or.inr h1
      | false =>
        rw [collapseWs_cons_sp_false c rest hc] at h
        rcases List.mem_cons.mp h with rfl | h
        · exact Or.inr rfl
        · rcases ih true h with ⟨h1, h2⟩ | h1
          · exact Or.inl ⟨List.mem_cons_of_mem _ h1, h2⟩
          · exact Or.inr h1
    · rw [collapseWs_cons_nsp b c rest hc] at h
      rcases List.mem_cons.mp h with rfl | h
      · refine Or.inl ⟨List.mem_cons_self _ _, ?_⟩
        cases hb : jsIsSpace x
        · rfl
        · exact absurd hb hc
      · rcases ih false h with ⟨h1, h2⟩ | h1
        · exact Or.inl ⟨List.mem_cons_of_mem _ h1, h2⟩
        · exact Or.inr h1

theorem collapseHy_cons_other (b : Bool) (c : Char) (rest : List Char)
    (hc : ¬ c = '-') :
    collapseHy b (c :: rest) = c :: collapseHy false rest := by
  show (if c = '-' then
      (match b with
        | true => collapseHy true rest
        | false => '-' :: collapseHy true rest)
    else c :: collapseHy false rest) = c :: collapseHy false rest
  rw [if_neg hc]

theorem collapseHy_cons_hy_true (rest : List Char) :
    collapseHy true ('-' :: rest) = collapseHy true rest := rfl

theorem collapseHy_cons_hy_false (rest : List Char) :
    collapseHy false ('-' :: rest) = '-' :: collapseHy true rest := rfl

theorem mem_collapseHy {x : Char} :
    ∀ (l : List Char) (b : Bool), x ∈ collapseHy b l → x ∈ l := by
  intro l
  induction l with
  | nil => intro b h; cases h
  | cons c rest ih =>
    intro b h
    by_cases hc : c = '-'
    · subst hc
      cases b with
      | true =>
        rw [collapseHy_cons_hy_true] at h
        exact List.mem_cons_of_mem _ (ih true h)
      | false =>
        rw [collapseHy_cons_hy_false] at h
        rcases List.mem_cons.mp h with rfl | h
        · exact List.mem_cons_self _ _
        · exact List.mem_cons_of_mem _ (ih true h)
    · rw [collapseHy_cons_other b c rest hc] at h
      rcases List.mem_cons.mp h with rfl | h
      · exact List.mem_cons_self _ _
      · exact List.mem_cons_of_mem _ (ih false h)

theorem mem_stripLeadHy {x : Char} {l : List Char} (h : x ∈ stripLeadHy l) :
    x ∈ l := by
  cases l with
  | nil => cases h
  | cons c rest =>
    simp only [stripLeadHy] at h
    by_cases hc : c = '-'
    · rw [if_pos hc] at h
      exact List.mem_cons_of_mem _ h
    · rw [if_neg hc] at h
      exact h

theorem stripTrailHy_cons_cons (c c2 : Char) (rest : List Char) :
    stripTrailHy (c :: c2 :: rest) = c :: stripTrailHy (c2 :: rest) := rfl

theorem mem_stripTrailHy {x : Char} :
    ∀ l, x ∈ stripTrailHy l → x ∈ l := by
  intro l
  induction l with
  | nil => intro h; cases h
  | cons c rest ih =>
    intro h
    cases rest with
    | nil =>
      by_cases hc : c = '-'
      · rw [show stripTrailHy [c] = if c = '-' then [] else [c] from rfl,
          if_pos hc] at h
        cases h
      · rw [show stripTrailHy [c] = if c = '-' then [] else [c] from rfl,
          if_neg hc] at h
        exact h
    | cons c2 rest2 =>
      rw [stripTrailHy_cons_cons] at h
      rcases List.mem_cons.mp h with rfl | h
      · exact List.mem_cons_self _ _
      · exact List.mem_cons_of_mem _ (ih h)

theorem noDoubleHy_cons_cons (a b2 : Char) (t : List Char) :
    noDoubleHy (a :: b2 :: t) = (!(a = '-' && b2 = '-') && noDoubleHy (b2 :: t)) :=
  rfl

theorem noDoubleHy_tail (c : Char) (l : List Char)
    (h : noDoubleHy (c :: l) = true) : noDoubleHy l = true := by
  cases l with
  | nil => rfl
  | cons y t =>
    rw [noDoubleHy_cons_cons] at h
    exact ((Bool.and_eq_true _ _).mp h).2

theorem collapseHy_true_head :
    ∀ l, collapseHy true l = [] ∨
      ∃ c t, collapseHy true l = c :: t ∧ c ≠ '-' := by
  intro l
  induction l with
  | nil => exact Or.inl rfl
  | cons c rest ih =>
    by_cases hc : c = '-'
    · subst hc
      rw [collapseHy_cons_hy_true]
      exact ih
    · rw [collapseHy_cons_other true c rest hc]
      exact Or.inr ⟨c, collapseHy false rest, rfl, hc⟩

theorem noDoubleHy_collapseHy : ∀ (l : List Char) (b : Bool),
    noDoubleHy (collapseHy b l) = true := by
  intro l
  induction l with
  | nil => intro b; rfl
  | cons c rest ih =>
    intro b
    by_cases hc : c = '-'
    · subst hc
      cases b with
      | true =>
        rw [collapseHy_cons_hy_true]
        exact ih true
      | false =>
        rw [collapseHy_cons_hy_false]
        rcases collapseHy_true_head rest with he | ⟨y, t, he, hy⟩
        · rw [he]; rfl
        · rw [he, noDoubleHy_cons_cons]
          have h2 : noDoubleHy (y :: t) = true := by rw [← he]; exact ih true
          simp [hy, h2]
    · rw [collapseHy_cons_other b c rest hc]
      cases hq : collapseHy false rest with
      | nil => rfl
      | cons y t =>
        rw [noDoubleHy_cons_cons]
        have h2 : noDoubleHy (y :: t) = true := by rw [← hq]; exact ih false
        simp [hc, h2]

theorem noDoubleHy_stripLeadHy (l : List Char) (h : noDoubleHy l = true) :
    noDoubleHy (stripLeadHy l) = true := by
  cases l with
  | nil => exact h
  | cons c rest =>
    simp only [stripLeadHy]
    by_cases hc : c = '-'
    · rw [if_pos hc]
      exact noDoubleHy_tail c rest h
    · rw [if_neg hc]
      exact h

theorem stripLeadHy_head_ne (l : List Char) (h : noDoubleHy l = true)
    (y : Char) (t : List Char) (heq : stripLeadHy l = y :: t) : y ≠ '-' := by
  cases l with
  | nil => cases heq
  | cons c rest =>
    simp only [stripLeadHy] at heq
    by_cases hc : c = '-'
    · rw [if_pos hc] at heq
      rw [hc] at h
      rw [heq] at h
      rw [noDoubleHy_cons_cons] at h
      rcases (Bool.and_eq_true _ _).mp h with ⟨h1, _⟩
      intro hy
      rw [hy] at h1
      simp at h1
    · rw [if_neg hc] at heq
      cases heq
      exact hc

theorem stripTrailHy_head (c : Char) (l : List Char) :
    stripTrailHy (c :: l) = [] ∨ ∃ t, stripTrailHy (c :: l) = c :: t := by
  cases l with
  | nil =>
    by_cases hc : c = '-'
    · exact Or.inl (by rw [show stripTrailHy [c] = if c = '-' then [] else [c]
        from rfl, if_pos hc])
    · exact Or.inr ⟨[], by rw [show stripTrailHy [c] = if c = '-' then [] else [c]
        from rfl, if_neg hc]⟩
  | cons c2 r => exact Or.inr ⟨stripTrailHy (c2 :: r), rfl⟩

theorem stripTrailHy_eq_nil (c : Char) (l : List Char)
    (h : stripTrailHy (c :: l) = []) : l = [] ∧ c = '-' := by
  cases l with
  | nil =>
    by_cases hc : c = '-'
    · exact ⟨rfl, hc⟩
    · rw [show stripTrailHy [c] = if c = '-' then [] else [c] from rfl,
        if_neg hc] at h
      cases h
  | cons c2 r =>
    rw [stripTrailHy_cons_cons] at h
    cases h

theorem noDoubleHy_stripTrailHy :
    ∀ l, noDoubleHy l = true → noDoubleHy (stripTrailHy l) = true := by
  intro l
  induction l with
  | nil => intro h; exact h
  | cons c rest ih =>
    intro h
    cases rest with
    | nil =>
      by_cases hc : c = '-'
      · rw [show stripTrailHy [c] = if c = '-' then [] else [c] from rfl,
          if_pos hc]
        rfl
      · rw [show stripTrailHy [c] = if c = '-' then [] else [c] from rfl,
          if_neg hc]
        rfl
    | cons c2 rest2 =>
      rw [stripTrailHy_cons_cons]
      have ht := ih (noDoubleHy_tail c (c2 :: rest2) h)
      rcases stripTrailHy_head c2 rest2 with he | ⟨t, he⟩
      · rw [he]; rfl
      · rw [he, noDoubleHy_cons_cons]
        rw [he] at ht
        rw [noDoubleHy_cons_cons] at h
        rcases (Bool.and_eq_true _ _).mp h with ⟨h1, _⟩
        exact (Bool.and_eq_true _ _).mpr ⟨h1, ht⟩

theorem stripTrailHy_getLast_ne :
    ∀ l, noDoubleHy l = true → (stripTrailHy l).getLast? ≠ some '-' := by
  intro l
  induction l with
  | nil =>
    intro _
    show (([] : List Char)).getLast? ≠ some '-'
    simp
  | cons c rest ih =>
    intro h
    cases rest with
    | nil =>
      by_cases hc : c = '-'
      · rw [show stripTrailHy [c] = if c = '-' then [] else [c] from rfl,
          if_pos hc]
        simp
      · rw [show stripTrailHy [c] = if c = '-' then [] else [c] from rfl,
          if_neg hc]
        simp [hc]
    | cons c2 rest2 =>
      rw [stripTrailHy_cons_cons]
      have ht := ih (noDoubleHy_tail c (c2 :: rest2) h)
      rcases stripTrailHy_head c2 rest2 with he | ⟨t, he⟩
      · rw [he]
        rcases stripTrailHy_eq_nil c2 rest2 he with ⟨hr2, hc2⟩
        rw [hr2, hc2] at h
        rw [noDoubleHy_cons_cons] at h
        rcases (Bool.and_eq_true _ _).mp h with ⟨h1, _⟩
        have hcne : c ≠ '-' := by
          intro hcc
          rw [hcc] at h1
          simp at h1
        simp [hcne]
      · rw [he]
        rw [he] at ht
        rw [List.getLast?_cons_cons]
        exact ht

theorem strip_head_ne (m : List Char) (hm : noDoubleHy m = true) :
    (stripTrailHy (stripLeadHy m)).head? ≠ some '-' := by
  cases hsl : stripLeadHy m with
  | nil =>
    show (stripTrailHy []).head? ≠ some '-'
    simp [stripTrailHy]
  | cons y t =>
    have hy : y ≠ '-' := stripLeadHy_head_ne m hm y t hsl
    rcases stripTrailHy_head y t with he | ⟨t2, he⟩
    · rw [he]
      simp
    · rw [he]
      simp [hy]

theorem slugifyChars_mem_charset (l : List Char) :
    ∀ x ∈ slugifyChars l, isSlugOutChar x = true := by
  intro x hx
  unfold slugifyChars at hx
  have hx1 := mem_stripTrailHy _ hx
  have hx2 := mem_stripLeadHy hx1
  have hx3 := mem_collapseHy _ _ hx2
  rcases mem_collapseWs _ _ hx3 with ⟨hin, hnsp⟩ | rfl
  · rcases List.mem_filter.mp hin with ⟨hin2, hkeep⟩
    have hnotup : ¬(65 ≤ x.toNat ∧ x.toNat ≤ 90) := by
      rcases mem_expandAmp _ hin2 with h | h | h | h
      · have hmt := mem_trimChars h
        rcases List.mem_map.mp hmt with ⟨y, _, rfl⟩
        exact toLower_not_upper y
      · rw [h]; decide
      · rw [h]; decide
      · rw [h]; decide
    simp only [isWordChar, Bool.or_eq_true, Bool.and_eq_true,
      decide_eq_true_eq] at hkeep
    simp only [isSlugOutChar, Bool.or_eq_true, Bool.and_eq_true,
      decide_eq_true_eq]
    have hnsp2 : ¬ jsIsSpace x = true := by
      rw [hnsp]
      exact Bool.false_ne_true
    tauto
  · decide

/-- C10: `slugify` returns the empty string for a non-string or empty
payload; every output character is a lowercase ASCII letter, a digit, an
underscore or a hyphen; the output never contains two consecutive hyphens and
never starts or ends with a hyphen — so the filename component built from a
lesson title carries no spaces or filesystem-unsafe characters. -/
theorem slugify_output_safe (input : Option String) :
    ((input = none ∨ input = some "") → slugify input = "") ∧
    (∀ c ∈ (slugify input).toList, isSlugOutChar c = true) ∧
    noDoubleHy (slugify input).toList = true ∧
    (slugify input).toList.head? ≠ some '-' ∧
    (slugify input).toList.getLast? ≠ some '-' := by
  cases input with
  | none =>
    refine ⟨fun _ => rfl, ?_, by decide, by decide, by decide⟩
    intro c hc
    cases hc
  | some s =>
    by_cases hs : s = ""
    · subst hs
      refine ⟨fun _ => rfl, ?_, by decide, by decide, by decide⟩
      intro c hc
      cases hc
    · have hdef : slugify (some s) = String.mk (slugifyChars s.toList) := by
        show (if s = "" then "" else String.mk (slugifyChars s.toList)) = _
        rw [if_neg hs]
      rw [hdef]
      have hm : noDoubleHy (collapseHy false (collapseWs false
          (keepSlugChars (expandAmp (trimChars
            (s.toList.map Char.toLower)))))) = true :=
        noDoubleHy_collapseHy _ false
      refine ⟨fun hcon => ?_, ?_, ?_, ?_, ?_⟩
      · rcases hcon with h | h
        · cases h
        · exact absurd (Option.some.inj h) hs
      · exact slugifyChars_mem_charset s.toList
      · exact noDoubleHy_stripTrailHy _ (noDoubleHy_stripLeadHy _ hm)
      · exact strip_head_ne _ hm
      · exact stripTrailHy_getLast_ne _ (noDoubleHy_stripLeadHy _ hm)

/-- Witness for `slugify_output_safe`: the non-string payload maps to the
empty string, and a concrete messy title slugifies to a safe filename
component satisfying the hyphen invariants. -/
theorem slugify_output_safe_witness :
    slugify none = "" ∧
    slugify (some " Hello, World! & You ") = "hello-world-and-you" ∧
    noDoubleHy (slugify (some " Hello, World! & You ")).toList = true ∧
    (slugify (some " Hello, World! & You ")).toList.head? ≠ some '-' :=
  ⟨(slugify_output_safe none).1 (Or.inl rfl), by decide,
    (slugify_output_safe (some " Hello, World! & You ")).2.2.1,
    (slugify_output_safe (some " Hello, World! & You ")).2.2.2.1⟩

end FMDL
